import Mathlib

/-!
# Verification of the GA knapsack solver (Project_1/src/main.rs)

Shallow embedding of the genetic-algorithm core: `Actor` (a bit-vector
candidate), fitness evaluation (`Actor.fit`), roulette-wheel selection
(`calculate_chance` / `roulette_selection`), single-point crossover
(`apply_crossover`), per-bit mutation (`mutate_population`) and the
evolution driver (`run_evolution`).

Modelling conventions:
* Rust `usize` arithmetic is modelled by `Nat`.  The one subtraction in the
  source (`total_fitness - distance_metric * 2` in `Actor::fit`) is checked
  arithmetic on `usize`: it panics on underflow, so `Actor.fit` returns
  `Option Nat` and yields `none` exactly when that subtraction underflows.
* Rust `f64` values are modelled by the inductive `F` below: an exact
  rational, positive infinity, or NaN.  The only floating-point operations
  the selection code performs are addition, division and `>=` comparison of
  non-negative values; `F` reproduces the IEEE-754 special-value behaviour
  (`0.0/0.0 = NaN`, any comparison with NaN is false) that decides the
  degenerate-fitness claims.  Rounding of finite values is not modelled;
  none of the claims settled here depends on it.
* The ambient RNG (`rand::thread_rng()`) is modelled by explicit oracle
  arguments: every random draw the source makes becomes an input (a bit for
  initialisation, a rational in `[0,1)` for a roulette draw or a
  `gen_bool` decision threshold, a natural number for a crossover point).
  `gen_bool(p)` is `true` iff a uniform draw `u ∈ [0,1)` satisfies `u < p`;
  `gen_range(0..n)` is an oracle value constrained to `[0, n)` by
  hypothesis where a theorem needs it.
* A Rust panic (index out of bounds, `unwrap` of `None`, arithmetic
  underflow) is modelled as `none` of an `Option`-returning function.
* Indexing `data[i]` inside `Actor::fit` is in bounds whenever the
  bitstring is no longer than the dataset; the sums are modelled with
  `List.zip`, which agrees with the source under that condition (the claims
  about `fit` carry it, and `Population::new` establishes it for every
  actor the program ever builds).
-/

/-- One CSV row `(i, p, w, x)` of the knapsack dataset: identifier, profit
`p` (the item value), weight `w` (the item cost), and a flag. -/
abbrev Row : Type := Nat × Nat × Nat × Nat

/-- The profit (value) column of a row: `data[i].1` in the source. -/
def Row.p (r : Row) : Nat := r.2.1

/-- The weight (cost) column of a row: `data[i].2` in the source. -/
def Row.w (r : Row) : Nat := r.2.2.1

/-- `struct Actor { bitstring: Vec<bool> }`. -/
structure Actor where
  bitstring : List Bool
deriving DecidableEq, Repr

/-- `struct Population { size, actors, mutation_rate, data }`.  The `f64`
mutation rate is carried exactly as a rational. -/
structure Population where
  size : Nat
  actors : List Actor
  mutation_rate : Rat
  data : List Row
deriving DecidableEq, Repr

/-- Sum, over the positions whose bit is `true`, of a projection of the
corresponding data row — the shape of both iterator sums in `Actor::fit`. -/
def sumSelected (bits : List Bool) (data : List Row) (f : Row → Nat) : Nat :=
  (((bits.zip data).filter (fun pr => pr.1)).map (fun pr => f pr.2)).sum

/-- `Actor::fit(&self, data, max_size)`.  `total_fitness` sums the selected
values, `sum_w` the selected costs.  Over capacity the source computes the
`usize` subtraction `total_fitness - max_size * 2`, which panics
(= `none`) when `total_fitness < max_size * 2`; there is no clamping. -/
def Actor.fit (a : Actor) (data : List Row) (max_size : Nat) : Option Nat :=
  let total_fitness : Nat := sumSelected a.bitstring data Row.p
  let sum_w : Nat := sumSelected a.bitstring data Row.w
  if max_size < sum_w then
    if total_fitness < max_size * 2 then
      none
    else
      some (total_fitness - max_size * 2)
  else
    some total_fitness

/-- Sum of the value column over the whole dataset. -/
def sumValues (data : List Row) : Nat := (data.map Row.p).sum

/-- The `f64` values flowing through `calculate_chance` / `roulette_selection`:
an exact finite rational, `+∞`, or NaN.  All finite values occurring in the
program are non-negative (they are `usize` casts and their quotients), so
only the special-value behaviour on that fragment is modelled. -/
inductive F where
  | fin : Rat → F
  | inf : F
  | nan : F
deriving DecidableEq, Repr

/-- IEEE-754 addition on `F` (non-negative fragment: `∞ + ∞ = ∞`, NaN
absorbs). -/
def F.add : F → F → F
  | F.nan, _ => F.nan
  | _, F.nan => F.nan
  | F.inf, _ => F.inf
  | _, F.inf => F.inf
  | F.fin a, F.fin b => F.fin (a + b)

/-- IEEE-754 division on `F` for the non-negative operands the program
produces: `0.0 / 0.0 = NaN`, `a / 0.0 = ∞` for `a ≠ 0`, NaN absorbs. -/
def F.div : F → F → F
  | F.nan, _ => F.nan
  | _, F.nan => F.nan
  | F.inf, F.inf => F.nan
  | F.inf, F.fin _ => F.inf
  | F.fin _, F.inf => F.fin 0
  | F.fin a, F.fin b => if b = 0 then (if a = 0 then F.nan else F.inf) else F.fin (a / b)

/-- IEEE-754 `>=` on `F`: every comparison involving NaN is `false`. -/
def F.ge : F → F → Bool
  | F.nan, _ => false
  | _, F.nan => false
  | F.inf, _ => true
  | F.fin _, F.inf => false
  | F.fin a, F.fin b => b ≤ a

/-- A loop that pushes `f a` for each element, where any iteration may
panic: the `Option`-valued elementwise map the source realises with
`push`/`unwrap` loops. -/
def optMap {α β : Type} (f : α → Option β) : List α → Option (List β)
  | [] => some []
  | a :: as => (f a).bind fun b => (optMap f as).map fun bs => b :: bs

/-- The fitness of every actor, in order (`actor.fit(...)` inside
`calculate_chance` and `run_evolution`); `none` if any evaluation panics. -/
def fitnesses (pop : Population) (total_space : Nat) : Option (List Nat) :=
  optMap (fun a => a.fit pop.data total_space) pop.actors

/-- `Population::calculate_chance`: accumulate `total_fit` as an `f64` sum of
the fitnesses, then divide each fitness by it.  When `total_fit = 0` every
quotient is `0.0 / 0.0 = NaN`; no error value is produced — the return type
of the source function is a plain `Vec<f64>`.  (The source writes into
`vec![0.0; self.size]`; mapping over `actors` agrees with it when
`actors.len() = size`, the invariant every caller maintains.) -/
def calculateChance (pop : Population) (total_space : Nat) : Option (List F) :=
  (fitnesses pop total_space).map fun fits =>
    let total_fit : Rat := (fits.map fun n => (Nat.cast n : Rat)).sum
    fits.map fun n => F.div (F.fin (Nat.cast n)) (F.fin total_fit)

/-- `cumsumFrom acc ps` lists `acc, acc+p₁, acc+p₁+p₂, …` — the running
state of the cumulative distribution loop. -/
def cumsumFrom : F → List F → List F
  | acc, [] => [acc]
  | acc, q :: qs => acc :: cumsumFrom (F.add acc q) qs

/-- Running sums of a list of `F`s: `cum[0] = prob[0]`,
`cum[i] = cum[i-1] + prob[i]` (the cumulative distribution loop). -/
def cumsumF : List F → List F
  | [] => []
  | p :: ps => cumsumFrom p ps

/-- `Population::roulette_selection`.  `draws k` is the `gen_range(0.0..1.0)`
value of the `k`-th slot.  The source indexes `cumulative_prob[0]` (panic on
`size = 0`), then for each slot takes
`cumulative_prob.iter().position(|&c| c >= rand_val).unwrap()` (panic when no
cumulative value compares `>=`, e.g. when all are NaN) and clones that
actor.  A panic anywhere is `none`; on success the population holds exactly
`size` new actors. -/
def rouletteSelection (pop : Population) (total_space : Nat) (draws : Nat → Rat) :
    Option Population :=
  (calculateChance pop total_space).bind fun prob =>
    if pop.size = 0 then none
    else
      let cumulative_prob := cumsumF prob
      (optMap (fun k =>
          (cumulative_prob.findIdx? (fun c => F.ge c (F.fin (draws k)))).bind fun idx =>
            pop.actors.get? idx)
        (List.range pop.size)).map fun new_actors =>
        { pop with actors := new_actors }

/-- One bitstring after `mutate_population`'s inner loop: bit `j` flips iff
`gen_bool(mutation_rate)`, i.e. iff the uniform draw `u j ∈ [0,1)` is below
the rate. -/
def mutateBits (rate : Rat) (u : Nat → Rat) (bits : List Bool) : List Bool :=
  bits.enum.map fun jb => if u jb.1 < rate then !jb.2 else jb.2

/-- `Population::mutate_population`: every bit of every actor flips
independently with probability `mutation_rate`; `u i j` is the draw for bit
`j` of actor `i`. -/
def mutatePopulation (pop : Population) (u : Nat → Nat → Rat) : Population :=
  { pop with
    actors := pop.actors.enum.map fun ia => ⟨mutateBits pop.mutation_rate (u ia.1) ia.2.bitstring⟩ }

/-- One crossover of a pair at point `k`: bits at positions `≥ k` are
swapped between the two parents (the `std::mem::swap` loop over
`crossover_point..len`).  Agrees with the source's index-by-index swap when
the two bitstrings have equal length — the only case the program reaches
without panicking. -/
def crossPair (k : Nat) (b1 b2 : List Bool) : List Bool × List Bool :=
  (b1.take k ++ b2.drop k, b2.take k ++ b1.drop k)

/-- The pairing loop of `apply_crossover` over `(0,1), (2,3), …`: a trailing
unpaired actor (odd population) is left unmodified.  `points n` is the
`gen_range(0..bitstring.len())` draw for the `n`-th pair. -/
def applyCrossoverList (points : Nat → Nat) : Nat → List Actor → List Actor
  | _, [] => []
  | _, [a] => [a]
  | n, a :: b :: rest =>
      let k := points n
      let pr := crossPair k a.bitstring b.bitstring
      ⟨pr.1⟩ :: ⟨pr.2⟩ :: applyCrossoverList points (n + 1) rest

/-- `Population::apply_crossover`. -/
def applyCrossover (pop : Population) (points : Nat → Nat) : Population :=
  { pop with actors := applyCrossoverList points 0 pop.actors }

/-- The oracle for the random draws of one generation. -/
structure GenRng where
  /-- roulette draw for selection slot `k` -/
  sel : Nat → Rat
  /-- crossover point for pair `n` -/
  cross : Nat → Nat
  /-- mutation draw for bit `j` of actor `i` -/
  mutDraw : Nat → Nat → Rat

/-- The body of `run_evolution`'s loop before the statistics:
`roulette_selection` then `apply_crossover` then `mutate_population`. -/
def generationStep (total_space : Nat) (rng : GenRng) (pop : Population) :
    Option Population :=
  (rouletteSelection pop total_space rng.sel).map fun pop1 =>
    mutatePopulation (applyCrossover pop1 rng.cross) rng.mutDraw

/-- `Population::run_evolution(total_space, generations)`: loop exactly
`generations` times (no early stopping); each iteration runs the generation
step, evaluates every actor of the post-variation population, and records
`best = max` (`.max().unwrap()`, panic on an empty population),
`avg = sum as f64 / len as f64` (exact rational here) and `worst = min`.
`rngs g` supplies generation `g`'s draws. -/
def runEvolution (pop : Population) (rngs : Nat → GenRng) (total_space : Nat) :
    Nat → Option (List Nat × List Rat × List Nat)
  | 0 => some ([], [], [])
  | g + 1 =>
    (generationStep total_space (rngs 0) pop).bind fun pop1 =>
    (fitnesses pop1 total_space).bind fun fits =>
    match fits.max?, fits.min? with
    | some best, some worst =>
        (runEvolution pop1 (fun n => rngs (n + 1)) total_space g).map fun hist =>
          (best :: hist.1, ((fits.sum : Rat) / (fits.length : Rat)) :: hist.2.1,
            worst :: hist.2.2)
    | _, _ => none

/-- `Population::new(size, bitstring_length, mutation_rate, data)`: build
`size` actors of `bitstring_length` random bits (`init i j` is the
`gen_bool(0.5)` outcome for bit `j` of actor `i`) and store the fields.
The constructor is total: the source performs no validation of any
argument and has no error path. -/
def Population.new (size bitstring_length : Nat) (mutation_rate : Rat)
    (data : List Row) (init : Nat → Nat → Bool) : Population :=
  { size := size
    actors := (List.range size).map fun i =>
      ⟨(List.range bitstring_length).map fun j => init i j⟩
    mutation_rate := mutation_rate
    data := data }

/-- Total number of `true` bits across a list of actors. -/
def actorsTrueCount (l : List Actor) : Nat :=
  (l.map fun a => a.bitstring.count true).sum

theorem sumSelected_le_sum (bits : List Bool) (data : List Row) (f : Row → Nat) :
    sumSelected bits data f ≤ (data.map f).sum := by
  induction bits generalizing data with
  | nil => simp [sumSelected]
  | cons b bs ih =>
    cases data with
    | nil => simp [sumSelected]
    | cons r rs =>
      simp only [sumSelected, List.zip_cons_cons, List.filter_cons, List.map_cons,
        List.sum_cons]
      cases b with
      | false =>
        simpa using le_trans (ih rs) (Nat.le_add_left _ _)
      | true =>
        simpa using Nat.add_le_add_left (ih rs) (f r)

theorem fit_le_of_some (a : Actor) (data : List Row) (max_size : Nat) (v : Nat)
    (h : a.fit data max_size = some v) : v ≤ sumValues data := by
  unfold Actor.fit at h
  by_cases hcap : max_size < sumSelected a.bitstring data Row.w
  · simp only [hcap, if_true] at h
    by_cases hund : sumSelected a.bitstring data Row.p < max_size * 2
    · simp [hund] at h
    · simp only [hund, if_false] at h
      have hv : v = sumSelected a.bitstring data Row.p - max_size * 2 :=
        (Option.some.inj h).symm
      calc v ≤ sumSelected a.bitstring data Row.p := by
              rw [hv]; exact Nat.sub_le _ _
        _ ≤ sumValues data := sumSelected_le_sum _ _ _
  · simp only [hcap, if_false] at h
    have hv : v = sumSelected a.bitstring data Row.p := (Option.some.inj h).symm
    rw [hv]; exact sumSelected_le_sum _ _ _

theorem fit_le_raw (a : Actor) (data : List Row) (max_size : Nat) (v : Nat)
    (h : a.fit data max_size = some v) :
    v ≤ sumSelected a.bitstring data Row.p := by
  unfold Actor.fit at h
  by_cases hcap : max_size < sumSelected a.bitstring data Row.w
  · by_cases hund : sumSelected a.bitstring data Row.p < max_size * 2
    · simp [hcap, hund] at h
    · simp only [hcap, hund, if_true, if_false] at h
      exact (Option.some.inj h).symm ▸ Nat.sub_le _ _
  · simp only [hcap, if_false] at h
    exact le_of_eq (Option.some.inj h).symm

/-- C1 counterexample: the claim says the penalized fitness is clamped at a
floor of 0.  It is not: for the one-item dataset `(0, 1, 10, 0)` with
capacity `4`, selecting the item gives `raw_value = 1`, `selected_cost =
10 > 4`, and the source computes the `usize` subtraction
`1 - 4 * 2`, which underflows (a panic in checked builds) — no value in
`[0, sum of values]` is returned. -/
theorem C1_counterexample :
    Actor.fit ⟨[true]⟩ [(0, 1, 10, 0)] 4 = none := by decide

/-- C1 (amended): whenever `Actor::fit` returns a value, that value is
`≥ 0` (it is a `usize`) and `≤` the sum of all item values; but when the
selected cost exceeds the capacity the source subtracts `2 * capacity`
with unchecked `usize` arithmetic instead of clamping at 0: the
subtraction underflows (panics) exactly when `raw_value < 2 * capacity`,
so no floor-at-0 clamp exists. -/
theorem C1_fit_bounded_when_defined :
    (∀ (a : Actor) (data : List Row) (max_size v : Nat),
        a.fit data max_size = some v → v ≤ sumValues data) ∧
    (∀ (a : Actor) (data : List Row) (max_size : Nat),
        max_size < sumSelected a.bitstring data Row.w →
        sumSelected a.bitstring data Row.p < max_size * 2 →
        a.fit data max_size = none) := by
  constructor
  · exact fun a data ms v h => fit_le_of_some a data ms v h
  · intro a data ms hcap hund
    unfold Actor.fit
    simp [hcap, hund]

/-- Witness for C1: a concrete in-capacity evaluation, `fit = some 5` with
`5 ≤ 12`, and a concrete over-capacity underflow. -/
theorem C1_witness :
    (5 : Nat) ≤ sumValues [(0, 5, 3, 0), (1, 7, 4, 0)] ∧
    Actor.fit ⟨[true]⟩ [(0, 1, 9, 0)] 4 = none :=
  ⟨C1_fit_bounded_when_defined.1 ⟨[true, false]⟩ [(0, 5, 3, 0), (1, 7, 4, 0)] 10 5 (by decide),
   C1_fit_bounded_when_defined.2 ⟨[true]⟩ [(0, 1, 9, 0)] 4 (by decide) (by decide)⟩

/-- C7: with the raw selected value held fixed, `Actor::fit` is
non-increasing as the selected cost grows (whenever both evaluations
return), and a penalized result never exceeds the raw (unpenalized)
value.  The penalty the source applies over capacity is the constant
`2 * capacity` — a (weakly) monotone non-decreasing function of the
overshoot wherever the subtraction is defined. -/
theorem C7_fit_monotone :
    (∀ (a1 a2 : Actor) (d1 d2 : List Row) (cap v1 v2 : Nat),
        sumSelected a1.bitstring d1 Row.p = sumSelected a2.bitstring d2 Row.p →
        sumSelected a1.bitstring d1 Row.w ≤ sumSelected a2.bitstring d2 Row.w →
        a1.fit d1 cap = some v1 → a2.fit d2 cap = some v2 → v2 ≤ v1) ∧
    (∀ (a : Actor) (data : List Row) (cap v : Nat),
        a.fit data cap = some v → v ≤ sumSelected a.bitstring data Row.p) := by
  refine ⟨?_, fit_le_raw⟩
  intro a1 a2 d1 d2 cap v1 v2 hraw hw h1 h2
  by_cases hcap1 : cap < sumSelected a1.bitstring d1 Row.w
  · -- both evaluations are over capacity: both results are raw - 2*cap
    have hcap2 : cap < sumSelected a2.bitstring d2 Row.w := lt_of_lt_of_le hcap1 hw
    unfold Actor.fit at h1 h2
    simp only [hcap1, hcap2, if_true] at h1 h2
    by_cases hund1 : sumSelected a1.bitstring d1 Row.p < cap * 2
    · simp [hund1] at h1
    · have hund2 : ¬ sumSelected a2.bitstring d2 Row.p < cap * 2 := by
        rw [← hraw]; exact hund1
      simp only [hund1, hund2, if_false] at h1 h2
      have e1 := Option.some.inj h1
      have e2 := Option.some.inj h2
      rw [← e1, ← e2, hraw]
  · -- the first evaluation is unpenalized: v1 is the common raw value
    have hv1 : v1 = sumSelected a1.bitstring d1 Row.p := by
      unfold Actor.fit at h1
      simp only [hcap1, if_false] at h1
      exact (Option.some.inj h1).symm
    have := fit_le_raw a2 d2 cap v2 h2
    rw [hv1, hraw]; exact this

/-- Witness for C7: costs `5 ≤ 7`, both over capacity `3`, equal raw value
`10`; both results are `10 - 6 = 4`, and `4 ≤ 10`. -/
theorem C7_witness : (4 : Nat) ≤ 4 ∧ (4 : Nat) ≤ 10 :=
  ⟨C7_fit_monotone.1 ⟨[true]⟩ ⟨[true]⟩ [(0, 10, 5, 0)] [(0, 10, 7, 0)] 3 4 4
      (by decide) (by decide) (by decide) (by decide),
   C7_fit_monotone.2 ⟨[true]⟩ [(0, 10, 7, 0)] 3 4 (by decide)⟩

/-- C8 counterexample: the claim says construction with size 0, bit length
0, or a mutation rate outside `[0,1]` fails fast with a
ConfigurationError.  `Population::new` performs no validation at all: with
all three violations at once (size 0, bit length 0, rate 2) it happily
returns a `Population`; no error path exists in the source. -/
theorem C8_counterexample :
    Population.new 0 0 2 [] (fun _ _ => true)
      = { size := 0, actors := [], mutation_rate := 2, data := [] } := by
  decide

/-- C8 (amended): `Population::new` is total and performs no validation:
for every size, bit length, mutation rate and dataset it constructs a
`Population` carrying exactly those parameters, with `size` actors of
`bitstring_length` bits each; no ConfigurationError exists in the code. -/
theorem C8_new_never_fails (size bitstring_length : Nat) (mutation_rate : Rat)
    (data : List Row) (init : Nat → Nat → Bool) :
    (Population.new size bitstring_length mutation_rate data init).size = size ∧
    (Population.new size bitstring_length mutation_rate data init).actors.length = size ∧
    (Population.new size bitstring_length mutation_rate data init).actors.map
        (fun a => a.bitstring.length) = List.replicate size bitstring_length ∧
    (Population.new size bitstring_length mutation_rate data init).mutation_rate
      = mutation_rate := by
  refine ⟨rfl, by simp [Population.new], ?_, rfl⟩
  have h : (Population.new size bitstring_length mutation_rate data init).actors.map
      (fun a => a.bitstring.length) = (List.range size).map fun _ => bitstring_length := by
    simp only [Population.new, List.map_map]
    exact List.map_congr_left fun i _ => by simp [Function.comp]
  rw [h, List.map_const', List.length_range]

theorem mutateBits_zero (u : Nat → Rat) (bits : List Bool)
    (hu : ∀ j, 0 ≤ u j) : mutateBits 0 u bits = bits := by
  unfold mutateBits
  have h : ∀ jb ∈ bits.enum, (if u jb.1 < 0 then !jb.2 else jb.2) = jb.2 := by
    intro jb _
    have : ¬ u jb.1 < 0 := not_lt.mpr (hu jb.1)
    simp [this]
  rw [List.map_congr_left h]
  exact List.enum_map_snd bits

/-- C9: mutation with `mutation_rate = 0` is the identity.  `gen_bool(0.0)`
is `false` for every draw `u ∈ [0,1)` (the draw is never `< 0`), so no bit
flips and every candidate — indeed the whole population value — is
unchanged. -/
theorem C9_mutate_rate_zero_id (pop : Population) (u : Nat → Nat → Rat)
    (hrate : pop.mutation_rate = 0) (hu : ∀ i j, 0 ≤ u i j) :
    mutatePopulation pop u = pop := by
  unfold mutatePopulation
  have h : pop.actors.enum.map
      (fun ia => (⟨mutateBits pop.mutation_rate (u ia.1) ia.2.bitstring⟩ : Actor))
      = pop.actors := by
    have h1 : ∀ ia ∈ pop.actors.enum,
        (⟨mutateBits pop.mutation_rate (u ia.1) ia.2.bitstring⟩ : Actor) = ia.2 := by
      intro ia _
      rw [hrate, mutateBits_zero (u ia.1) ia.2.bitstring (hu ia.1)]
    rw [List.map_congr_left h1]
    exact List.enum_map_snd pop.actors
  rw [h]

/-- Witness for C9: a concrete two-actor population with rate 0 and
constant draw `1/2` is returned unchanged by mutation. -/
theorem C9_witness :
    mutatePopulation ⟨2, [⟨[true, false]⟩, ⟨[false, false]⟩], 0, []⟩ (fun _ _ => 1/2)
      = ⟨2, [⟨[true, false]⟩, ⟨[false, false]⟩], 0, []⟩ :=
  C9_mutate_rate_zero_id ⟨2, [⟨[true, false]⟩, ⟨[false, false]⟩], 0, []⟩ (fun _ _ => 1/2)
    rfl (fun i j => by norm_num)

theorem crossPair_length (k : Nat) (b1 b2 : List Bool) (L : Nat)
    (h1 : b1.length = L) (h2 : b2.length = L) :
    (crossPair k b1 b2).1.length = L ∧ (crossPair k b1 b2).2.length = L := by
  constructor <;> · simp [crossPair, h1, h2]; omega

theorem crossPair_getD_fst (k L j : Nat) (b1 b2 : List Bool)
    (h1 : b1.length = L) (h2 : b2.length = L) (hk : k ≤ L) :
    (crossPair k b1 b2).1.getD j false
      = if j < k then b1.getD j false else b2.getD j false := by
  have htk : (b1.take k).length = k := by rw [List.length_take, h1]; omega
  by_cases hj : j < k
  · rw [crossPair, List.getD_eq_getElem?_getD, List.getElem?_append, htk, if_pos hj,
      List.getElem?_take, if_pos hj, if_pos hj, List.getD_eq_getElem?_getD]
  · rw [crossPair, List.getD_eq_getElem?_getD,
      List.getElem?_append_right (by omega : (b1.take k).length ≤ j), htk,
      List.getElem?_drop, if_neg hj, List.getD_eq_getElem?_getD,
      show k + (j - k) = j by omega]

theorem crossPair_getD_snd (k L j : Nat) (b1 b2 : List Bool)
    (_h1 : b1.length = L) (h2 : b2.length = L) (hk : k ≤ L) :
    (crossPair k b1 b2).2.getD j false
      = if j < k then b2.getD j false else b1.getD j false := by
  have htk : (b2.take k).length = k := by rw [List.length_take, h2]; omega
  by_cases hj : j < k
  · rw [crossPair, List.getD_eq_getElem?_getD, List.getElem?_append, htk, if_pos hj,
      List.getElem?_take, if_pos hj, if_pos hj, List.getD_eq_getElem?_getD]
  · rw [crossPair, List.getD_eq_getElem?_getD,
      List.getElem?_append_right (by omega : (b2.take k).length ≤ j), htk,
      List.getElem?_drop, if_neg hj, List.getD_eq_getElem?_getD,
      show k + (j - k) = j by omega]

theorem applyCrossoverList_length (points : Nat → Nat) :
    ∀ (l : List Actor) (n : Nat), (applyCrossoverList points n l).length = l.length
  | [], _ => rfl
  | [_], _ => rfl
  | _ :: _ :: rest, n => by
      simp [applyCrossoverList, applyCrossoverList_length points rest (n + 1)]

theorem getLast?_cons_of_ne_nil {α : Type} (a : α) (l : List α) (h : l ≠ []) :
    (a :: l).getLast? = l.getLast? := by
  cases l with
  | nil => exact absurd rfl h
  | cons b bs => exact List.getLast?_cons_cons

theorem applyCrossoverList_getLast_odd (points : Nat → Nat) :
    ∀ (l : List Actor) (n : Nat), l.length % 2 = 1 →
      (applyCrossoverList points n l).getLast? = l.getLast?
  | [], _, h => by simp at h
  | [_], _, _ => rfl
  | a :: b :: rest, n, h => by
      have hrest : rest.length % 2 = 1 := by
        simp only [List.length_cons] at h; omega
      have hne : rest ≠ [] := by
        intro hcon; rw [hcon] at hrest; simp at hrest
      have hne2 : applyCrossoverList points (n + 1) rest ≠ [] := by
        intro hcon
        have := applyCrossoverList_length points rest (n + 1)
        rw [hcon] at this
        exact hne (List.eq_nil_of_length_eq_zero this.symm)
      show ((⟨(crossPair (points n) a.bitstring b.bitstring).1⟩ : Actor) ::
          (⟨(crossPair (points n) a.bitstring b.bitstring).2⟩ : Actor) ::
          applyCrossoverList points (n + 1) rest).getLast? = (a :: b :: rest).getLast?
      rw [List.getLast?_cons_cons, getLast?_cons_of_ne_nil _ _ hne2,
        List.getLast?_cons_cons, getLast?_cons_of_ne_nil _ _ hne,
        applyCrossoverList_getLast_odd points rest (n + 1) hrest]

/-- C5: crossover operates on consecutive pairs, an odd trailing candidate
is left unmodified, and for a pair crossed at point `k` the child keeps
its own bits at positions `< k` and takes the partner's bits at positions
`≥ k` (`k` is the `gen_range(0..bit_length)` draw, so `k < bit_length`);
for parents `1100` and `0011` with crossover point `2` the children are
`1111` and `0000`. -/
theorem C5_crossover_single_point :
    (∀ (k L j : Nat) (b1 b2 : List Bool), b1.length = L → b2.length = L → k < L →
        (crossPair k b1 b2).1.getD j false
            = (if j < k then b1.getD j false else b2.getD j false) ∧
        (crossPair k b1 b2).2.getD j false
            = (if j < k then b2.getD j false else b1.getD j false)) ∧
    (∀ (pop : Population) (points : Nat → Nat), pop.actors.length % 2 = 1 →
        (applyCrossover pop points).actors.getLast? = pop.actors.getLast?) ∧
    (applyCrossover ⟨2, [⟨[true, true, false, false]⟩, ⟨[false, false, true, true]⟩], 0, []⟩
        (fun _ => 2)).actors
      = [⟨[true, true, true, true]⟩, ⟨[false, false, false, false]⟩] := by
  refine ⟨?_, ?_, by decide⟩
  · intro k L j b1 b2 h1 h2 hk
    exact ⟨crossPair_getD_fst k L j b1 b2 h1 h2 (le_of_lt hk),
      crossPair_getD_snd k L j b1 b2 h1 h2 (le_of_lt hk)⟩
  · intro pop points h
    exact applyCrossoverList_getLast_odd points pop.actors 0 h

/-- Witness for C5: the pair characterisation evaluated at `k = 2`,
`j = 3` on the spec's example parents, and the odd-population case on a
three-actor population whose last actor survives crossover untouched. -/
theorem C5_witness :
    ((crossPair 2 [true, true, false, false] [false, false, true, true]).1.getD 3 false
        = (if 3 < 2 then [true, true, false, false].getD 3 false
            else [false, false, true, true].getD 3 false) ∧
      (crossPair 2 [true, true, false, false] [false, false, true, true]).2.getD 3 false
        = (if 3 < 2 then [false, false, true, true].getD 3 false
            else [true, true, false, false].getD 3 false)) ∧
    (applyCrossover ⟨3, [⟨[true]⟩, ⟨[false]⟩, ⟨[true]⟩], 0, []⟩
        (fun _ => 0)).actors.getLast?
      = ([⟨[true]⟩, ⟨[false]⟩, ⟨[true]⟩] : List Actor).getLast? :=
  ⟨C5_crossover_single_point.1 2 4 3 [true, true, false, false] [false, false, true, true]
      (by decide) (by decide) (by decide),
   C5_crossover_single_point.2.1 ⟨3, [⟨[true]⟩, ⟨[false]⟩, ⟨[true]⟩], 0, []⟩
      (fun _ => 0) (by decide)⟩

theorem crossPair_count (k : Nat) (b1 b2 : List Bool) :
    (crossPair k b1 b2).1.count true + (crossPair k b1 b2).2.count true
      = b1.count true + b2.count true := by
  have e1 := List.count_append true (b1.take k) (b1.drop k)
  rw [List.take_append_drop] at e1
  have e2 := List.count_append true (b2.take k) (b2.drop k)
  rw [List.take_append_drop] at e2
  simp only [crossPair, List.count_append]
  omega

theorem applyCrossoverList_count (points : Nat → Nat) :
    ∀ (l : List Actor) (n : Nat),
      actorsTrueCount (applyCrossoverList points n l) = actorsTrueCount l
  | [], _ => rfl
  | [_], _ => rfl
  | a :: b :: rest, n => by
      simp only [applyCrossoverList, actorsTrueCount, List.map_cons, List.sum_cons]
      have hrec := applyCrossoverList_count points rest (n + 1)
      simp only [actorsTrueCount] at hrec
      rw [hrec, ← Nat.add_assoc, ← Nat.add_assoc,
        crossPair_count (points n) a.bitstring b.bitstring]

/-- C10: within each consecutive pair, crossover either keeps or swaps the
two bits at every position `j` (the multiset of the pair's bits at `j` is
preserved), and consequently the total number of `true` bits of a
population of equal-length candidates is unchanged by `apply_crossover`. -/
theorem C10_crossover_preserves_bit_multiset :
    (∀ (k L j : Nat) (b1 b2 : List Bool), b1.length = L → b2.length = L → k ≤ L →
        ((crossPair k b1 b2).1.getD j false, (crossPair k b1 b2).2.getD j false)
            = (b1.getD j false, b2.getD j false) ∨
        ((crossPair k b1 b2).1.getD j false, (crossPair k b1 b2).2.getD j false)
            = (b2.getD j false, b1.getD j false)) ∧
    (∀ (pop : Population) (points : Nat → Nat) (L : Nat),
        (∀ a ∈ pop.actors, a.bitstring.length = L) →
        actorsTrueCount (applyCrossover pop points).actors
          = actorsTrueCount pop.actors) := by
  constructor
  · intro k L j b1 b2 h1 h2 hk
    rw [crossPair_getD_fst k L j b1 b2 h1 h2 hk, crossPair_getD_snd k L j b1 b2 h1 h2 hk]
    by_cases hj : j < k
    · left; rw [if_pos hj, if_pos hj]
    · right; rw [if_neg hj, if_neg hj]
  · intro pop points L _
    exact applyCrossoverList_count points pop.actors 0

/-- Witness for C10: the pair multiset property at `k = 1`, `j = 0` for
`10` / `01`, and bit conservation on a concrete two-actor population
(total of two `true` bits before and after crossing at point 1). -/
theorem C10_witness :
    (((crossPair 1 [true, false] [false, true]).1.getD 0 false,
        (crossPair 1 [true, false] [false, true]).2.getD 0 false)
          = ([true, false].getD 0 false, [false, true].getD 0 false) ∨
      ((crossPair 1 [true, false] [false, true]).1.getD 0 false,
        (crossPair 1 [true, false] [false, true]).2.getD 0 false)
          = ([false, true].getD 0 false, [true, false].getD 0 false)) ∧
    actorsTrueCount (applyCrossover
        ⟨2, [⟨[true, false]⟩, ⟨[false, true]⟩], 0, []⟩ (fun _ => 1)).actors
      = actorsTrueCount [⟨[true, false]⟩, ⟨[false, true]⟩] :=
  ⟨C10_crossover_preserves_bit_multiset.1 1 2 0 [true, false] [false, true]
      (by decide) (by decide) (by decide),
   C10_crossover_preserves_bit_multiset.2 ⟨2, [⟨[true, false]⟩, ⟨[false, true]⟩], 0, []⟩
      (fun _ => 1) 2 (by decide)⟩

theorem findIdx?_eq_none_of_false {α : Type} (p : α → Bool) :
    ∀ (l : List α) (i : Nat), (∀ c ∈ l, p c = false) → List.findIdx? p l i = none := by
  intro l
  induction l with
  | nil => intro i _; exact List.findIdx?_nil
  | cons a as ih =>
    intro i h
    rw [List.findIdx?_cons, h a (List.mem_cons_self a as)]
    simp only [Bool.false_eq_true, if_false]
    exact ih (i + 1) fun c hc => h c (List.mem_cons_of_mem a hc)

theorem cumsumF_nan_of_all_nan :
    ∀ (l : List F), (∀ x ∈ l, x = F.nan) → ∀ c ∈ cumsumF l, c = F.nan := by
  intro l hl
  cases l with
  | nil => intro c hc; simp [cumsumF] at hc
  | cons p ps =>
    have hp : p = F.nan := hl p (List.mem_cons_self p ps)
    subst hp
    have key : ∀ (qs : List F) (c : F), c ∈ cumsumFrom F.nan qs → c = F.nan := by
      intro qs
      induction qs with
      | nil => intro c hc; simpa [cumsumFrom] using hc
      | cons q qs ihq =>
        intro c hc
        simp only [cumsumFrom, List.mem_cons] at hc
        rcases hc with rfl | hc
        · rfl
        · exact ihq c (by simpa [F.add] using hc)
    intro c hc
    exact key ps c (by simpa [cumsumF] using hc)

/-- C2 (amended): when the total fitness over the population is 0,
`calculate_chance` returns all-NaN probabilities (each is `0.0 / 0.0`) —
its return type `Vec<f64>` cannot carry an error — and
`roulette_selection`'s `position(|&c| c >= rand_val)` finds no index
because every comparison with NaN is false, so the `.unwrap()` panics and
the process aborts (`none` here).  No `DegenerateFitnessError` type exists
anywhere in the source, and no error value reaches the caller. -/
theorem C2_zero_fitness_panics (pop : Population) (total_space : Nat)
    (draws : Nat → Rat) (fits : List Nat)
    (hfits : fitnesses pop total_space = some fits) (hsum : fits.sum = 0) :
    calculateChance pop total_space
        = some (fits.map fun _ => F.nan) ∧
    rouletteSelection pop total_space draws = none := by
  have hz : ∀ n ∈ fits, n = 0 := List.sum_eq_zero_iff.mp hsum
  have htot : ((fits.map fun n => (Nat.cast n : Rat)).sum : Rat) = 0 := by
    rw [show (fits.map fun n => (Nat.cast n : Rat)) = fits.map Nat.cast from rfl,
      ← Nat.cast_list_sum, hsum, Nat.cast_zero]
  have hchance : calculateChance pop total_space = some (fits.map fun _ => F.nan) := by
    unfold calculateChance
    rw [hfits, Option.map_some']
    congr 1
    simp only [htot]
    refine List.map_congr_left fun n hn => ?_
    rw [hz n hn]
    simp [F.div]
  refine ⟨hchance, ?_⟩
  unfold rouletteSelection
  rw [hchance, Option.some_bind]
  by_cases hsz : pop.size = 0
  · rw [if_pos hsz]
  · rw [if_neg hsz]
    have hnan : ∀ c ∈ cumsumF (fits.map fun _ => F.nan), c = F.nan := by
      refine cumsumF_nan_of_all_nan _ fun x hx => ?_
      rcases List.mem_map.mp hx with ⟨n, _, rfl⟩
      rfl
    have hfind : ∀ k : Nat,
        (cumsumF (fits.map fun _ => F.nan)).findIdx?
          (fun c => F.ge c (F.fin (draws k))) = none := by
      intro k
      refine findIdx?_eq_none_of_false _ _ 0 fun c hc => ?_
      rw [hnan c hc]
      rfl
    obtain ⟨m, hm⟩ : ∃ m, pop.size = m + 1 :=
      ⟨pop.size - 1, by omega⟩
    rw [hm, List.range_succ_eq_map]
    simp only [optMap, hfind, Option.none_bind]
    rfl

/-- C2 counterexample: for the all-zero-value dataset `[(0,0,0,0)]` and a
two-actor population, `calculate_chance` returns the ordinary vector
`[NaN, NaN]` — no error value of any kind — and `roulette_selection`
panics (`unwrap` of `None`), aborting instead of propagating a
`DegenerateFitnessError` to the caller. -/
theorem C2_counterexample :
    calculateChance ⟨2, [⟨[true]⟩, ⟨[false]⟩], 0, [(0, 0, 0, 0)]⟩ 5
        = some [F.nan, F.nan] ∧
    rouletteSelection ⟨2, [⟨[true]⟩, ⟨[false]⟩], 0, [(0, 0, 0, 0)]⟩ 5 (fun _ => 1/2)
        = none := by
  have hfits : fitnesses ⟨2, [⟨[true]⟩, ⟨[false]⟩], 0, [(0, 0, 0, 0)]⟩ 5 = some [0, 0] := by
    decide
  have h1 : calculateChance ⟨2, [⟨[true]⟩, ⟨[false]⟩], 0, [(0, 0, 0, 0)]⟩ 5
      = some [F.nan, F.nan] := by
    unfold calculateChance
    rw [hfits, Option.map_some']
    norm_num [F.div]
  refine ⟨h1, ?_⟩
  unfold rouletteSelection
  rw [h1, Option.some_bind]
  rfl

/-- Witness for C2: the amended theorem applied to the same concrete
degenerate population, with a different draw stream. -/
theorem C2_witness :
    calculateChance ⟨2, [⟨[true]⟩, ⟨[false]⟩], 0, [(0, 0, 0, 0)]⟩ 7
        = some ([0, 0].map fun _ => F.nan) ∧
    rouletteSelection ⟨2, [⟨[true]⟩, ⟨[false]⟩], 0, [(0, 0, 0, 0)]⟩ 7 (fun _ => 1/4)
        = none :=
  C2_zero_fitness_panics ⟨2, [⟨[true]⟩, ⟨[false]⟩], 0, [(0, 0, 0, 0)]⟩ 7
    (fun _ => 1/4) [0, 0] (by decide) (by decide)

theorem optMap_length {α β : Type} (f : α → Option β) :
    ∀ (l : List α) (l2 : List β), optMap f l = some l2 → l2.length = l.length := by
  intro l
  induction l with
  | nil =>
    intro l2 h
    simp only [optMap, Option.some.injEq] at h
    rw [← h]
    rfl
  | cons a as ih =>
    intro l2 h
    simp only [optMap, Option.bind_eq_some, Option.map_eq_some'] at h
    obtain ⟨b, _, bs, hbs, rfl⟩ := h
    simp [ih bs hbs]

theorem optMap_mem {α β : Type} (f : α → Option β) :
    ∀ (l : List α) (l2 : List β), optMap f l = some l2 →
      ∀ b ∈ l2, ∃ a ∈ l, f a = some b := by
  intro l
  induction l with
  | nil =>
    intro l2 h b hb
    simp only [optMap, Option.some.injEq] at h
    rw [← h] at hb
    simp at hb
  | cons a as ih =>
    intro l2 h b hb
    simp only [optMap, Option.bind_eq_some, Option.map_eq_some'] at h
    obtain ⟨b0, hb0, bs, hbs, rfl⟩ := h
    rcases List.mem_cons.mp hb with rfl | hb
    · exact ⟨a, List.mem_cons_self a as, hb0⟩
    · obtain ⟨a0, ha0, hfa0⟩ := ih bs hbs b hb
      exact ⟨a0, List.mem_cons_of_mem a ha0, hfa0⟩

theorem rouletteSelection_some (pop pop1 : Population) (total_space : Nat)
    (draws : Nat → Rat) (h : rouletteSelection pop total_space draws = some pop1) :
    pop1.size = pop.size ∧ pop1.mutation_rate = pop.mutation_rate ∧
    pop1.data = pop.data ∧ pop1.actors.length = pop.size ∧
    ∀ a ∈ pop1.actors, a ∈ pop.actors := by
  unfold rouletteSelection at h
  cases hcc : calculateChance pop total_space with
  | none => rw [hcc] at h; simp at h
  | some prob =>
    rw [hcc, Option.some_bind] at h
    by_cases hsz : pop.size = 0
    · rw [if_pos hsz] at h; simp at h
    · rw [if_neg hsz] at h
      rcases Option.map_eq_some'.mp h with ⟨new_actors, hna, rfl⟩
      refine ⟨rfl, rfl, rfl, ?_, ?_⟩
      · simpa [List.length_range] using optMap_length _ _ _ hna
      · intro a ha
        obtain ⟨k, _, hfk⟩ := optMap_mem _ _ _ hna a ha
        obtain ⟨idx, _, hget⟩ := Option.bind_eq_some.mp hfk
        exact List.get?_mem hget

theorem applyCrossoverList_bitLengths (points : Nat → Nat) (L : Nat) :
    ∀ (l : List Actor) (n : Nat), (∀ a ∈ l, a.bitstring.length = L) →
      ∀ a ∈ applyCrossoverList points n l, a.bitstring.length = L
  | [], _, _ => by intro a ha; simp [applyCrossoverList] at ha
  | [x], _, h => by
      intro a ha
      simp only [applyCrossoverList, List.mem_singleton] at ha
      rw [ha]
      exact h x (List.mem_singleton_self x)
  | x :: y :: rest, n, h => by
      intro a ha
      have hx := h x (by simp)
      have hy := h y (by simp)
      simp only [applyCrossoverList, List.mem_cons] at ha
      rcases ha with rfl | rfl | ha
      · exact (crossPair_length (points n) x.bitstring y.bitstring L hx hy).1
      · exact (crossPair_length (points n) x.bitstring y.bitstring L hx hy).2
      · exact applyCrossoverList_bitLengths points L rest (n + 1)
          (fun a' ha' => h a' (by simp [ha'])) a ha

theorem mutateBits_length (rate : Rat) (u : Nat → Rat) (bits : List Bool) :
    (mutateBits rate u bits).length = bits.length := by
  simp [mutateBits, List.enum_length]

theorem mutatePopulation_invariant (pop : Population) (u : Nat → Nat → Rat) (L : Nat)
    (hlen : ∀ a ∈ pop.actors, a.bitstring.length = L) :
    (mutatePopulation pop u).size = pop.size ∧
    (mutatePopulation pop u).actors.length = pop.actors.length ∧
    ∀ a ∈ (mutatePopulation pop u).actors, a.bitstring.length = L := by
  refine ⟨rfl, by simp [mutatePopulation, List.enum_length], ?_⟩
  intro a ha
  simp only [mutatePopulation] at ha
  rcases List.mem_map.mp ha with ⟨ia, hia, rfl⟩
  have hmem : ia.2 ∈ pop.actors := by
    have := List.mem_enum_iff_getElem?.mp hia
    exact List.get?_mem (by rw [List.get?_eq_getElem?]; exact this)
  simpa [mutateBits_length] using hlen ia.2 hmem

/-- C4: one generation step (`roulette_selection` then `apply_crossover`
then `mutate_population`), whenever it completes, preserves the Population
invariant: selection produces exactly `size` new candidates (so the
candidate count equals the configured size), crossover and mutation never
add or remove candidates, and all candidates still share the common bit
length `L`. -/
theorem C4_generation_preserves_invariant (pop pop2 : Population) (total_space : Nat)
    (rng : GenRng) (L : Nat)
    (_hsz : pop.actors.length = pop.size)
    (hlen : ∀ a ∈ pop.actors, a.bitstring.length = L)
    (hstep : generationStep total_space rng pop = some pop2) :
    pop2.size = pop.size ∧ pop2.actors.length = pop.size ∧
    ∀ a ∈ pop2.actors, a.bitstring.length = L := by
  unfold generationStep at hstep
  rcases Option.map_eq_some'.mp hstep with ⟨pop1, hsel, rfl⟩
  obtain ⟨hsz1, _, _, hlen1, hmem1⟩ :=
    rouletteSelection_some pop pop1 total_space rng.sel hsel
  have hbits1 : ∀ a ∈ pop1.actors, a.bitstring.length = L :=
    fun a ha => hlen a (hmem1 a ha)
  have hbitsX : ∀ a ∈ (applyCrossover pop1 rng.cross).actors, a.bitstring.length = L :=
    applyCrossoverList_bitLengths rng.cross L pop1.actors 0 hbits1
  obtain ⟨hm1, hm2, hm3⟩ :=
    mutatePopulation_invariant (applyCrossover pop1 rng.cross) rng.mutDraw L hbitsX
  refine ⟨hsz1, ?_, hm3⟩
  rw [hm2]
  show (applyCrossoverList rng.cross 0 pop1.actors).length = pop.size
  rw [applyCrossoverList_length rng.cross pop1.actors 0, hlen1]

theorem generationStep_one_actor :
    generationStep 5 ⟨fun _ => 1/2, fun _ => 0, fun _ _ => 1/2⟩
      ⟨1, [⟨[true]⟩], 0, [(0, 1, 1, 0)]⟩
      = some ⟨1, [⟨[true]⟩], 0, [(0, 1, 1, 0)]⟩ := by
  have hfits : fitnesses ⟨1, [⟨[true]⟩], 0, [(0, 1, 1, 0)]⟩ 5 = some [1] := by decide
  unfold generationStep rouletteSelection calculateChance
  rw [hfits, Option.map_some', Option.some_bind]
  norm_num [cumsumF, cumsumFrom, F.div, F.ge, optMap, List.findIdx?_cons,
    List.range_succ_eq_map]
  norm_num [applyCrossover, applyCrossoverList, mutatePopulation, mutateBits]

/-- Witness for C4: a one-actor population; the generation step completes
(with the sole actor re-selected, crossed trivially and unmutated at rate
0) and the invariant conclusions hold concretely. -/
theorem C4_witness :
    ((⟨1, [⟨[true]⟩], 0, [(0, 1, 1, 0)]⟩ : Population)).size = 1 ∧
    ((⟨1, [⟨[true]⟩], 0, [(0, 1, 1, 0)]⟩ : Population)).actors.length = 1 ∧
    (∀ a ∈ ((⟨1, [⟨[true]⟩], 0, [(0, 1, 1, 0)]⟩ : Population)).actors,
      a.bitstring.length = 1) :=
  C4_generation_preserves_invariant
    ⟨1, [⟨[true]⟩], 0, [(0, 1, 1, 0)]⟩ ⟨1, [⟨[true]⟩], 0, [(0, 1, 1, 0)]⟩ 5
    ⟨fun _ => 1/2, fun _ => 0, fun _ _ => 1/2⟩ 1 rfl (by decide)
    generationStep_one_actor

theorem runEvolution_lengths :
    ∀ (gens : Nat) (pop : Population) (rngs : Nat → GenRng) (total_space : Nat)
      (hist : List Nat × List Rat × List Nat),
      runEvolution pop rngs total_space gens = some hist →
      hist.1.length = gens ∧ hist.2.1.length = gens ∧ hist.2.2.length = gens := by
  intro gens
  induction gens with
  | zero =>
    intro pop rngs ts hist h
    simp only [runEvolution, Option.some.injEq] at h
    rw [← h]
    exact ⟨rfl, rfl, rfl⟩
  | succ g ih =>
    intro pop rngs ts hist h
    simp only [runEvolution] at h
    obtain ⟨pop1, _, h⟩ := Option.bind_eq_some.mp h
    obtain ⟨fits, _, h⟩ := Option.bind_eq_some.mp h
    cases hmax : fits.max? with
    | none => rw [hmax] at h; cases hmin : fits.min? <;> rw [hmin] at h <;> simp at h
    | some best =>
      cases hmin : fits.min? with
      | none => rw [hmax, hmin] at h; simp at h
      | some worst =>
        rw [hmax, hmin] at h
        obtain ⟨hist0, hrec, rfl⟩ := Option.map_eq_some'.mp h
        obtain ⟨h1, h2, h3⟩ := ih pop1 (fun n => rngs (n + 1)) ts hist0 hrec
        exact ⟨by simp [h1], by simp [h2], by simp [h3]⟩

theorem runEvolution_succ_inv (pop : Population) (rngs : Nat → GenRng)
    (total_space g : Nat) (hist : List Nat × List Rat × List Nat)
    (h : runEvolution pop rngs total_space (g + 1) = some hist) :
    ∃ pop1 fits, generationStep total_space (rngs 0) pop = some pop1 ∧
      fitnesses pop1 total_space = some fits ∧
      hist.1.head? = fits.max? ∧
      hist.2.1.head? = some ((fits.sum : Rat) / (fits.length : Rat)) ∧
      hist.2.2.head? = fits.min? ∧
      runEvolution pop1 (fun n => rngs (n + 1)) total_space g
        = some (hist.1.tail, hist.2.1.tail, hist.2.2.tail) := by
  simp only [runEvolution] at h
  obtain ⟨pop1, hstep, h⟩ := Option.bind_eq_some.mp h
  obtain ⟨fits, hfits, h⟩ := Option.bind_eq_some.mp h
  refine ⟨pop1, fits, hstep, hfits, ?_⟩
  cases hmax : fits.max? with
  | none => rw [hmax] at h; cases hmin : fits.min? <;> rw [hmin] at h <;> simp at h
  | some best =>
    cases hmin : fits.min? with
    | none => rw [hmax, hmin] at h; simp at h
    | some worst =>
      rw [hmax, hmin] at h
      obtain ⟨hist0, hrec, rfl⟩ := Option.map_eq_some'.mp h
      exact ⟨rfl, rfl, rfl, hrec⟩

/-- C6: `run_evolution` loops exactly `generations` times with no early
stopping — every returned history has all three sequences of length
exactly `generations`, `generations = 0` returns three empty sequences
(not an error), and each generation prepends one record computed on the
post-variation population (the population produced by the generation
step): `best` is the maximum, `worst` the minimum and the average the
mean of that population's fitness values. -/
theorem C6_run_evolution_driver :
    (∀ (pop : Population) (rngs : Nat → GenRng) (total_space : Nat),
        runEvolution pop rngs total_space 0 = some ([], [], [])) ∧
    (∀ (pop : Population) (rngs : Nat → GenRng) (total_space gens : Nat)
        (hist : List Nat × List Rat × List Nat),
        runEvolution pop rngs total_space gens = some hist →
        hist.1.length = gens ∧ hist.2.1.length = gens ∧ hist.2.2.length = gens) ∧
    (∀ (pop : Population) (rngs : Nat → GenRng) (total_space g : Nat)
        (hist : List Nat × List Rat × List Nat),
        runEvolution pop rngs total_space (g + 1) = some hist →
        ∃ pop1 fits, generationStep total_space (rngs 0) pop = some pop1 ∧
          fitnesses pop1 total_space = some fits ∧
          hist.1.head? = fits.max? ∧
          hist.2.1.head? = some ((fits.sum : Rat) / (fits.length : Rat)) ∧
          hist.2.2.head? = fits.min? ∧
          runEvolution pop1 (fun n => rngs (n + 1)) total_space g
            = some (hist.1.tail, hist.2.1.tail, hist.2.2.tail)) :=
  ⟨fun _ _ _ => rfl,
   fun pop rngs ts gens hist h => runEvolution_lengths gens pop rngs ts hist h,
   fun pop rngs ts g hist h => runEvolution_succ_inv pop rngs ts g hist h⟩

/-- Witness for C6: a concrete one-actor, one-generation run returns the
history `([1], [1], [1])`, whose three sequences indeed have length 1. -/
theorem C6_witness :
    ([1] : List Nat).length = 1 ∧ ([1] : List Rat).length = 1 ∧
    ([1] : List Nat).length = 1 := by
  have hrun : runEvolution ⟨1, [⟨[true]⟩], 0, [(0, 1, 1, 0)]⟩
      (fun _ => ⟨fun _ => 1/2, fun _ => 0, fun _ _ => 1/2⟩) 5 1
      = some ([1], [1], [1]) := by
    have hfits : fitnesses ⟨1, [⟨[true]⟩], 0, [(0, 1, 1, 0)]⟩ 5 = some [1] := by decide
    norm_num [runEvolution, generationStep_one_actor, hfits]
  exact C6_run_evolution_driver.2.1 ⟨1, [⟨[true]⟩], 0, [(0, 1, 1, 0)]⟩
    (fun _ => ⟨fun _ => 1/2, fun _ => 0, fun _ _ => 1/2⟩) 5 1 ([1], [1], [1]) hrun
